import Mathlib

/-!
Shallow embedding of the audio-processing core of the `listeningpy`
repository (modules `listeningpy/processing.py` and
`listeningpy/normalization.py`), together with theorems settling the
specification claims about it.

Conventions of the embedding:

* An audio buffer is a `List (List α)` of samples.  For the convolution
  pipeline (`convolution`, `match_fs`) buffers are kept channel-major
  (one inner list per channel), mirroring the `in1.T` / `in2.T` views the
  Python code works on; the trailing `.T` of the Python code only changes
  the memory layout back and is dropped, since it affects neither channel
  count, frame count nor sample values.  For the loudness pipeline
  (`zwicker_loudness_normalize`) buffers are frame-major, matching the
  `(frames, channels)` numpy layout that `mean(axis=1)` is applied to.
* Machine floats are modelled by `ℝ` (exact arithmetic); the generic
  convolution kernels are polymorphic so that concrete cases can be
  decided over `ℤ`.
* External numerical collaborators (scipy's resampler and Butterworth
  filter, the mosqito loudness model, the pyloudnorm meter) are passed in
  as function parameters, exactly as the specification treats them
  (external oracles, spec section 6).
-/

namespace Listeningpy

/-! ### Full linear convolution (processing.py, line 138)

`signal.oaconvolve(in2.T, in1.T)` computes the full linear convolution of
the two 2-D arrays over *both* axes.  `conv1d` is full 1-D convolution
(written as the standard polynomial-product recursion) and `conv2d` the
full 2-D convolution, obtained by convolving along the channel axis with
rows combined by the zero-extending pointwise sum `addL`.  `[[0,-1]]`
then selects the first and last row, embedded as `convSelect`. -/

/-- Pointwise sum of two sample rows, zero-extending the shorter one. -/
def addL {α : Type} [CommRing α] : List α → List α → List α
  | [], ys => ys
  | xs, [] => xs
  | x :: xs, y :: ys => (x + y) :: addL xs ys

/-- Full 1-D linear convolution of two sample rows. -/
def conv1d {α : Type} [CommRing α] : List α → List α → List α
  | [], _ => []
  | x :: xs, ys => addL (ys.map (fun y => x * y)) (0 :: conv1d xs ys)

/-- Row-wise sum of two channel lists, zero-extending the shorter one. -/
def addR {α : Type} [CommRing α] : List (List α) → List (List α) → List (List α)
  | [], ys => ys
  | xs, [] => xs
  | x :: xs, y :: ys => addL x y :: addR xs ys

/-- Full 2-D linear convolution (the channel axis convolved via `addR`,
each row pair via `conv1d`); this is `signal.oaconvolve` on the
transposed 2-D arrays. -/
def conv2d {α : Type} [CommRing α] : List (List α) → List (List α) → List (List α)
  | [], _ => []
  | a :: as_, bs => addR (bs.map (conv1d a)) ([] :: conv2d as_ bs)

/-- The row selection `[[0, -1]]` applied to the full 2-D convolution:
`signal.oaconvolve(in2.T, in1.T)[[0,-1]]` (processing.py, line 138). -/
def convSelect {α : Type} [CommRing α] (stim ir : List (List α)) : List (List α) :=
  [(conv2d stim ir).headI, (conv2d stim ir).getLastD []]

section ConvLemmas

variable {α : Type} [CommRing α]

theorem addL_nil (xs : List α) : addL xs [] = xs := by
  cases xs <;> rfl

theorem addL_length (xs ys : List α) : (addL xs ys).length = max xs.length ys.length := by
  induction xs generalizing ys with
  | nil => simp [addL]
  | cons x xs ih =>
    cases ys with
    | nil => simp [addL]
    | cons y ys => simp [addL, ih, Nat.succ_max_succ]

theorem addR_nil (xs : List (List α)) : addR xs [] = xs := by
  cases xs <;> rfl

theorem addR_length (xs ys : List (List α)) :
    (addR xs ys).length = max xs.length ys.length := by
  induction xs generalizing ys with
  | nil => simp [addR]
  | cons x xs ih =>
    cases ys with
    | nil => simp [addR]
    | cons y ys => simp [addR, ih, Nat.succ_max_succ]

theorem conv1d_length (xs ys : List α) (hx : xs ≠ []) (hy : ys ≠ []) :
    (conv1d xs ys).length = xs.length + ys.length - 1 := by
  have hy1 : 1 ≤ ys.length := List.length_pos.mpr hy
  induction xs with
  | nil => exact absurd rfl hx
  | cons x xs ih =>
    by_cases hxs : xs = []
    · subst hxs
      simp only [conv1d, addL_length, List.length_map, List.length_cons,
        List.length_nil]
      have : max ys.length (0 + 1) = ys.length := Nat.max_eq_left (by omega)
      omega
    · have hx1 : 1 ≤ xs.length := List.length_pos.mpr hxs
      have h1 := ih hxs
      simp only [conv1d, addL_length, List.length_map, List.length_cons, h1]
      have : max ys.length (xs.length + ys.length - 1 + 1) =
          xs.length + ys.length - 1 + 1 := Nat.max_eq_right (by omega)
      omega

theorem conv2d_length (as_ bs : List (List α)) (ha : as_ ≠ []) (hb : bs ≠ []) :
    (conv2d as_ bs).length = as_.length + bs.length - 1 := by
  have hb1 : 1 ≤ bs.length := List.length_pos.mpr hb
  induction as_ with
  | nil => exact absurd rfl ha
  | cons a as_ ih =>
    by_cases has : as_ = []
    · subst has
      simp only [conv2d, addR_length, List.length_map, List.length_cons,
        List.length_nil]
      have : max bs.length (0 + 1) = bs.length := Nat.max_eq_left (by omega)
      omega
    · have ha1 : 1 ≤ as_.length := List.length_pos.mpr has
      have h1 := ih has
      simp only [conv2d, addR_length, List.length_map, List.length_cons, h1]
      have : max bs.length (as_.length + bs.length - 1 + 1) =
          as_.length + bs.length - 1 + 1 := Nat.max_eq_right (by omega)
      omega

theorem conv2d_headI (as_ bs : List (List α)) (ha : as_ ≠ []) (hb : bs ≠ []) :
    (conv2d as_ bs).headI = conv1d as_.headI bs.headI := by
  cases as_ with
  | nil => exact absurd rfl ha
  | cons a as_ =>
    cases bs with
    | nil => exact absurd rfl hb
    | cons b bs =>
      cases as_ <;> simp [conv2d, addR, addL_nil, List.headI]

theorem addR_single_nil (xs : List (List α)) (hx : xs ≠ []) : addR xs [[]] = xs := by
  cases xs with
  | nil => exact absurd rfl hx
  | cons x xs => simp [addR, addL_nil, addR_nil]

theorem getLastD_irrel {β : Type} (l : List β) (d d' : β) (h : l ≠ []) :
    l.getLastD d = l.getLastD d' := by
  cases l with
  | nil => exact absurd rfl h
  | cons b l =>
    cases l with
    | nil => rfl
    | cons b' l' =>
      exact (List.getLastD_cons d b _).trans (List.getLastD_cons d' b _).symm

theorem getLastD_cons_of_ne_nil {β : Type} (a d : β) (l : List β) (h : l ≠ []) :
    (a :: l).getLastD d = l.getLastD d := by
  rw [List.getLastD_cons]
  exact getLastD_irrel l a d h

theorem getLastD_map_conv1d (a : List α) (bs : List (List α)) (hb : bs ≠ []) :
    (bs.map (conv1d a)).getLastD [] = conv1d a (bs.getLastD []) := by
  induction bs with
  | nil => exact absurd rfl hb
  | cons b bs ih =>
    cases bs with
    | nil => simp
    | cons b' bs' =>
      rw [List.map_cons,
        getLastD_cons_of_ne_nil _ _ _ (by simp),
        getLastD_cons_of_ne_nil _ _ _ (by simp)]
      exact ih (by simp)

theorem getLastD_addR_of_lt (xs ys : List (List α)) (h : xs.length < ys.length) :
    (addR xs ys).getLastD [] = ys.getLastD [] := by
  induction xs generalizing ys with
  | nil => simp [addR]
  | cons x xs ih =>
    cases ys with
    | nil => simp at h
    | cons y ys =>
      have h' : xs.length < ys.length := by simpa using h
      have hys : ys ≠ [] := by
        intro hcon
        rw [hcon] at h'
        simp at h'
      have haddR : addR xs ys ≠ [] := by
        intro hcon
        have := addR_length xs ys
        rw [hcon] at this
        simp at this
        omega
      simp only [addR]
      rw [getLastD_cons_of_ne_nil _ _ _ haddR, getLastD_cons_of_ne_nil _ _ _ hys]
      exact ih ys h'

theorem conv2d_getLastD (as_ bs : List (List α)) (ha : as_ ≠ []) (hb : bs ≠ []) :
    (conv2d as_ bs).getLastD [] = conv1d (as_.getLastD []) (bs.getLastD []) := by
  have hb1 : 1 ≤ bs.length := List.length_pos.mpr hb
  induction as_ with
  | nil => exact absurd rfl ha
  | cons a as_ ih =>
    by_cases has : as_ = []
    · subst has
      simp only [conv2d]
      rw [addR_single_nil _ (by simpa using hb)]
      rw [getLastD_map_conv1d a bs hb]
      rfl
    · have ha1 : 1 ≤ as_.length := List.length_pos.mpr has
      have hlen : (bs.map (conv1d a)).length < ([] :: conv2d as_ bs).length := by
        have h2 := conv2d_length as_ bs has hb
        simp only [List.length_map, List.length_cons, h2]
        omega
      have hc : conv2d as_ bs ≠ [] := by
        intro hcon
        have := conv2d_length as_ bs has hb
        rw [hcon] at this
        simp at this
        omega
      simp only [conv2d]
      rw [getLastD_addR_of_lt _ _ hlen,
        getLastD_cons_of_ne_nil _ _ _ hc, ih has,
        getLastD_cons_of_ne_nil _ _ _ has]

end ConvLemmas

/-! ### Buffer measurements shared by normalization.py and processing.py -/

/-- All samples of a buffer in one flat list. -/
def flatVals (b : List (List ℝ)) : List ℝ :=
  b.foldr (fun ch acc => ch ++ acc) []

/-- Model of `abs(b).max()`: largest absolute sample value of a buffer (`0` for an
empty buffer, where numpy would error instead; theorems about it assume a
nonzero buffer). -/
noncomputable def maxAbs (b : List (List ℝ)) : ℝ :=
  ((flatVals b).map (fun x => |x|)).foldr max 0

/-- Model of `abs(b).sum()`: sum of absolute sample values. -/
def sumAbs (b : List (List ℝ)) : ℝ :=
  ((flatVals b).map (fun x => |x|)).sum

/-- Arithmetic mean of a list of reals (numpy `mean`). -/
noncomputable def listMean (l : List ℝ) : ℝ :=
  l.sum / (l.length : ℝ)

/-- Elementwise scaling `b * r` of a buffer by a scalar. -/
def scaleB (r : ℝ) (b : List (List ℝ)) : List (List ℝ) :=
  b.map (fun ch => ch.map (fun x => x * r))

/-! ### normalization.py -/

/-- Embedding of `fs_to_pressure` (normalization.py lines 10-32):
`ratio_db = p0 * 10 ** (dbfs_db/20); audio * ratio_db`, with the default
reference pressure `p0 = 2e-5` Pa (the only value the repository uses). -/
noncomputable def fs_to_pressure (audio : List (List ℝ)) (dbfs_db : ℝ) : List (List ℝ) :=
  scaleB ((2 / 100000) * (10 : ℝ) ^ (dbfs_db / 20)) audio

/-- Embedding of `eq_loudness_lvl` (normalization.py lines 34-66), frame-major buffer.
`rOracle` models `scipy.signal.resample` (signal, new length) and
`zOracle` models the time-varying loudness curve `N` returned by
`mosqito.loudness_zwtv`; both are external numerical collaborators.  The
scalar summary is `40 + 10*log2(N.mean())`. -/
noncomputable def eq_loudness_lvl (rOracle : List ℝ → ℕ → List ℝ)
    (zOracle : List ℝ → List ℝ) (audio_pressure : List (List ℝ)) (fs : ℕ) : ℝ :=
  let mono := audio_pressure.map (fun fr => fr.sum / (fr.length : ℝ))
  let res := rOracle mono (mono.length * 48000 / fs)
  let n := zOracle res
  40 + 10 * Real.logb 2 (listMean n)

/-- Embedding of `peak_normalize` (normalization.py lines 68-104):
`factor = 10**(peak/20) / abs(reference).max()`, reference defaulting to
the audio itself; returns `(audio * factor, fs)`. -/
noncomputable def peak_normalize (audio : List (List ℝ)) (fs : ℕ) (peak : ℝ)
    (reference : Option (List (List ℝ))) : List (List ℝ) × ℕ :=
  let ref := reference.getD audio
  let factor := (10 : ℝ) ^ (peak / 20) / maxAbs ref
  (scaleB factor audio, fs)

/-- Embedding of `rms_normalize` (normalization.py lines 106-142):
`factor = 10**(rms/20) / sqrt(mean(reference**2))`. -/
noncomputable def rms_normalize (audio : List (List ℝ)) (fs : ℕ) (rms : ℝ)
    (reference : Option (List (List ℝ))) : List (List ℝ) × ℕ :=
  let ref := reference.getD audio
  let factor := (10 : ℝ) ^ (rms / 20) /
    Real.sqrt (listMean ((flatVals ref).map (fun x => x ^ 2)))
  (scaleB factor audio, fs)

/-- Embedding of `lufs_normalize` (normalization.py lines 144-175); `meter` models the
pyloudnorm integrated-loudness measurement (sample rate, signal) and is
an external collaborator.  `factor = 10**((lufs - loudness)/20)`. -/
noncomputable def lufs_normalize (meter : ℕ → List (List ℝ) → ℝ)
    (audio : List (List ℝ)) (fs : ℕ) (lufs : ℝ)
    (reference : Option (List (List ℝ))) : List (List ℝ) × ℕ :=
  let ref := reference.getD audio
  let loudness := meter fs ref
  let factor := (10 : ℝ) ^ ((lufs - loudness) / 20)
  (scaleB factor audio, fs)

/-- Embedding of `ir_sum_normalize` (normalization.py lines 177-208):
`factor = 10**(ir_sum/20) / abs(ir).sum()`. -/
noncomputable def ir_sum_normalize (audio ir : List (List ℝ)) (fs : ℕ)
    (ir_sum : ℝ) : List (List ℝ) × ℕ :=
  let factor := (10 : ℝ) ^ (ir_sum / 20) / sumAbs ir
  (scaleB factor audio, fs)

/-! ### The loudness convergence loop (normalization.py lines 217-229)

The Python loop

    ratio_loud = 1; n = 0
    while abs(loud_diff) > 0.1:
        ratio_loud *= 10 ** (loud_diff/20)
        audio_pressure_it = audio_pressure * ratio_loud
        loud_lvl, loudness = eq_loudness_lvl(audio_pressure_it, fs)
        loud_diff = target_phon - loud_lvl
        n += 1

has no iteration bound; it is embedded with an explicit fuel parameter:
`none` means the loop is *still running* after `fuel` iterations (the
Python code would simply keep iterating), `some (ratio, n)` means it
exited its `while` test after `n` iterations with cumulative gain
`ratio`.  `phonOf` abstracts the measurement `eq_loudness_lvl(·, fs)`. -/

noncomputable def convergeAux (phonOf : List (List ℝ) → ℝ) (target : ℝ)
    (p : List (List ℝ)) : ℕ → ℝ → ℝ → ℕ → Option (ℝ × ℕ)
  | fuel, ratio, diff, n =>
    if |diff| ≤ 1 / 10 then some (ratio, n)
    else
      match fuel with
      | 0 => none
      | f + 1 =>
        convergeAux phonOf target p f (ratio * (10 : ℝ) ^ (diff / 20))
          (target - phonOf (scaleB (ratio * (10 : ℝ) ^ (diff / 20)) p)) (n + 1)

/-- The whole fixed-point search: initial measurement on the unscaled
pressure signal, then `convergeAux` starting from `ratio_loud = 1`. -/
noncomputable def zwickerLoop (phonOf : List (List ℝ) → ℝ) (target : ℝ)
    (p : List (List ℝ)) (fuel : ℕ) : Option (ℝ × ℕ) :=
  convergeAux phonOf target p fuel 1 (target - phonOf p) 0

/-- Observable outcome of `zwicker_loudness_normalize`:
`running` if the `while` loop has not exited within the modelled number of
iterations, `clip` for the `ValueError` raise (carrying `headroom_db`),
`ok` for the normal return `(audio, fs)` or `(audio, fs, ratio_loud)`. -/
inductive ZRet where
  | running : ZRet
  | clip : ℝ → ZRet
  | ok : List (List ℝ) → ℕ → Option ℝ → ZRet

/-- Embedding of `zwicker_loudness_normalize` (normalization.py lines 210-248),
frame-major buffer.  The pair's second component is the final contents of
the caller's `audio` buffer object, which the statement `audio *=
ratio_loud` mutates in place before the clipping check. -/
noncomputable def zwicker_loudness_normalize (rOracle : List ℝ → ℕ → List ℝ)
    (zOracle : List ℝ → List ℝ) (audio : List (List ℝ)) (fs : ℕ)
    (target_phon dbfs_db : ℝ) (return_ratio : Bool) (fuel : ℕ) :
    ZRet × List (List ℝ) :=
  match zwickerLoop (fun b => eq_loudness_lvl rOracle zOracle b fs) target_phon
      (fs_to_pressure audio dbfs_db) fuel with
  | none => (ZRet.running, audio)
  | some (r, _) =>
    let scaled := scaleB r audio
    let headroom_db := 20 * Real.logb 10 (1 / maxAbs scaled)
    if 1 < maxAbs scaled then (ZRet.clip headroom_db, scaled)
    else (ZRet.ok scaled fs (if return_ratio then some r else none), scaled)

/-! ### processing.py -/

/-- The supported prefilter names (`FILTERS = ['hp', 'lp']`). -/
def FILTERS : List String := ["hp", "lp"]

/-- The HFT90D generalized-cosine window coefficients
(processing.py line 129). -/
noncomputable def hft90d : List ℝ :=
  [1, 1.942604, 1.340318, 0.440811, 0.043097]

/-- Model of `scipy.signal.windows.general_cosine(M, a)` (symmetric):
`w[j] = sum_k a[k] * cos(k * fac[j])` with `fac = linspace(-pi, pi, M)`. -/
noncomputable def generalCosine (m : ℕ) (a : List ℝ) : List ℝ :=
  (List.range m).map (fun (j : ℕ) =>
    ((List.range a.length).map (fun (k : ℕ) =>
      a.getD k 0 *
        Real.cos ((k : ℝ) *
          (-Real.pi + 2 * Real.pi * (j : ℝ) / ((m : ℝ) - 1))))).sum)

/-- Maximum of a list of reals (numpy `max`; `0` for the empty list,
where numpy would error). -/
noncomputable def maxL : List ℝ → ℝ
  | [] => 0
  | x :: xs => xs.foldl max x

/-- The fade-out window of `convolution` (processing.py lines 129-132):
`size = int(fs_in2/12.5)`, the last `size` samples of a `2*size`-sample
HFT90D window, normalized to peak 1. -/
noncomputable def fadeWin (fs2 : ℕ) : List ℝ :=
  let size := fs2 * 2 / 25
  let w := generalCosine (2 * size) hft90d
  let wt := w.drop (w.length - size)
  wt.map (fun x => x / maxL wt)

/-- Errors the embedded `convolution` can raise: `broadcast` models the
numpy broadcast `ValueError` from `i[-size:] *= fade_out_win` when the
slice is shorter than the window, `nameError` the Python `NameError` from
using the unbound `audio_prefiltered` after an unrecognized prefilter. -/
inductive ConvErr where
  | broadcast : ConvErr
  | nameError : ConvErr

/-- One channel of the in-place taper `i[-size:] *= fade_out_win`
(processing.py lines 133-134).  `i[-size:]` clamps to the whole channel
when `size` exceeds its length, in which case numpy raises a broadcast
error because the slice and the window no longer have equal lengths. -/
noncomputable def applyFade (win chan : List ℝ) : Except ConvErr (List ℝ) :=
  if win.length ≤ chan.length then
    Except.ok (chan.take (chan.length - win.length) ++
      List.zipWith (fun a b => a * b) (chan.drop (chan.length - win.length)) win)
  else Except.error ConvErr.broadcast

/-- The loop `for i in in1.T: i[-size:] *= fade_out_win` over all channels. -/
noncomputable def taperChannels (win : List ℝ) :
    List (List ℝ) → Except ConvErr (List (List ℝ))
  | [] => Except.ok []
  | c :: cs =>
    match applyFade win c, taperChannels win cs with
    | Except.ok c', Except.ok cs' => Except.ok (c' :: cs')
    | Except.error e, _ => Except.error e
    | _, Except.error e => Except.error e

/-- Embedding of `match_fs` (processing.py lines 233-244): unconditionally resamples
`in1` to length `int(in1.shape[0]*fs_in2/fs_in1)` via `scipy.signal.resample`
(modelled by the external `rf`) and returns the new buffer with `fs_in2`.
There is no equal-rate short-circuit here; that check lives in the caller
`convolution`.  In the channel-major view, `in1.shape[0]` (the frame
count) is the length of the first channel. -/
def match_fs (rf : List (List ℝ) → ℕ → List (List ℝ)) (in1 : List (List ℝ))
    (fs_in2 fs_in1 : ℕ) : List (List ℝ) × ℕ :=
  (rf in1 (in1.headI.length * fs_in2 / fs_in1), fs_in2)

/-- The normalization dispatch of `convolution` (processing.py lines
155-187), written as the same `if/elif` chain.  The branches for an
unrecognized prefilter (`prefOpt = none`) model the Python `NameError`
from the unbound `audio_prefiltered`; the final two branches are the
`normalization is None` case (log "Normalization was not applied") and
the catch-all `else` (log "Specified normalization type not
implemented"), both of which return the audio unnormalized. -/
noncomputable def normalizeDispatch (meter : ℕ → List (List ℝ) → ℝ)
    (mode : Option String) (audio : List (List ℝ))
    (prefOpt : Option (List (List ℝ))) (ir : List (List ℝ)) (fs : ℕ)
    (t : ℝ) : Except ConvErr (List (List ℝ) × ℕ) :=
  if mode = some "peak" then
    match prefOpt with
    | none => Except.error ConvErr.nameError
    | some ref => Except.ok ((peak_normalize audio fs t (some ref)).1, fs)
  else if mode = some "ir_sum" then
    Except.ok ((ir_sum_normalize audio ir fs t).1, fs)
  else if mode = some "rms" then
    match prefOpt with
    | none => Except.error ConvErr.nameError
    | some ref => Except.ok ((rms_normalize audio fs t (some ref)).1, fs)
  else if mode = some "lufs" then
    match prefOpt with
    | none => Except.error ConvErr.nameError
    | some ref => Except.ok ((lufs_normalize meter audio fs t (some ref)).1, fs)
  else if mode = Option.none then Except.ok (audio, fs)
  else Except.ok (audio, fs)

/-- Embedding of `convolution` (processing.py lines 74-192), channel-major buffers.
`rf` models `scipy.signal.resample`, `bf` the 12th-order Butterworth
`sosfilt` prefilter (filter kind, critical frequency, sample rate,
signal), `meter` the pyloudnorm integrated-loudness meter; all three are
external numerical collaborators.  Steps: resample the IR `in1` when the
rates differ, optionally taper its tail with the HFT90D window, convolve
(`convSelect`), compute the prefiltered measurement copy, then apply the
selected normalization. -/
noncomputable def convolution (rf : List (List ℝ) → ℕ → List (List ℝ))
    (bf : String → ℝ → ℕ → List (List ℝ) → List (List ℝ))
    (meter : ℕ → List (List ℝ) → ℝ) (in1 : List (List ℝ)) (fs_in1 : ℕ)
    (in2 : List (List ℝ)) (fs_in2 : ℕ) (fade_out : Bool)
    (normalization : Option String) (normalization_target : ℝ)
    (normalization_prefilter : String) (prefilter_critical_freq : ℝ) :
    Except ConvErr (List (List ℝ) × ℕ) :=
  let resampled := if fs_in1 = fs_in2 then (in1, fs_in1)
    else match_fs rf in1 fs_in2 fs_in1
  let in1r := resampled.1
  let fs1 := resampled.2
  let tapered := if fade_out then taperChannels (fadeWin fs_in2) in1r
    else Except.ok in1r
  match tapered with
  | Except.error e => Except.error e
  | Except.ok in1t =>
    let audio := convSelect in2 in1t
    let prefOpt : Option (List (List ℝ)) :=
      if normalization_prefilter = "" then some audio
      else if normalization_prefilter ∈ FILTERS then
        some (bf normalization_prefilter prefilter_critical_freq fs1 audio)
      else none
    normalizeDispatch meter normalization audio prefOpt in1t fs1
      normalization_target

/-! ### Helper lemmas -/

theorem headI_mem {β : Type} [Inhabited β] (l : List β) (h : l ≠ []) :
    l.headI ∈ l := by
  cases l with
  | nil => exact absurd rfl h
  | cons b t => simp

theorem getLastD_mem {β : Type} (l : List β) (d : β) (h : l ≠ []) :
    l.getLastD d ∈ l := by
  induction l with
  | nil => exact absurd rfl h
  | cons b t ih =>
    by_cases ht : t = []
    · subst ht
      simp
    · rw [getLastD_cons_of_ne_nil _ _ _ ht]
      exact List.mem_cons_of_mem b (ih ht)

theorem flatVals_scaleB (r : ℝ) (b : List (List ℝ)) :
    flatVals (scaleB r b) = (flatVals b).map (fun x => x * r) := by
  induction b with
  | nil => rfl
  | cons ch bs ih => simp [flatVals, scaleB, List.map_append] at ih ⊢; rw [ih]

theorem foldr_max_zero_scale (l : List ℝ) (c : ℝ) (hc : 0 ≤ c) :
    ((l.map (fun x => x * c)).foldr max 0) = (l.foldr max 0) * c := by
  induction l with
  | nil => simp
  | cons x xs ih =>
    simp only [List.map_cons, List.foldr_cons, ih]
    rw [max_mul_of_nonneg _ _ hc]

theorem maxAbs_scaleB (r : ℝ) (b : List (List ℝ)) :
    maxAbs (scaleB r b) = maxAbs b * |r| := by
  unfold maxAbs
  rw [flatVals_scaleB]
  have h1 : ((flatVals b).map (fun x => x * r)).map (fun x => |x|)
      = ((flatVals b).map (fun x => |x|)).map (fun x => x * |r|) := by
    simp only [List.map_map]
    refine List.map_congr_left ?_
    intro x _
    exact abs_mul x r
  rw [h1, foldr_max_zero_scale _ _ (abs_nonneg r)]

/-- C9: peak normalization without an explicit reference scales the input
by `10^(target/20) / max|audio|`, so the resulting peak equals
`10^(target/20)`; and on `[0.5, -0.25, 0.1]` with target 0 the scale
factor is 2 and the result is `[1.0, -0.5, 0.2]`. -/
theorem peak_normalize_invariant (audio : List (List ℝ)) (fs : ℕ) (t : ℝ)
    (h : 0 < maxAbs audio) :
    maxAbs (peak_normalize audio fs t none).1 = (10 : ℝ) ^ (t / 20)
    ∧ peak_normalize [[1 / 2, -(1 / 4), 1 / 10]] 48000 0 none
      = ([[1, -(1 / 2), 1 / 5]], 48000) := by
  constructor
  · simp only [peak_normalize, Option.getD_none]
    rw [maxAbs_scaleB]
    have hfac : 0 < (10 : ℝ) ^ (t / 20) / maxAbs audio :=
      div_pos (Real.rpow_pos_of_pos (by norm_num) _) h
    rw [abs_of_pos hfac, mul_comm, div_mul_cancel₀ _ (ne_of_gt h)]
  · have hm : maxAbs [[(1 : ℝ) / 2, -(1 / 4), 1 / 10]] = 1 / 2 := by
      simp only [maxAbs, flatVals, List.foldr_cons, List.foldr_nil,
        List.append_nil, List.map_cons, List.map_nil]
      rw [abs_of_pos (by norm_num : (0:ℝ) < 1 / 2),
        abs_of_neg (by norm_num : -((1:ℝ) / 4) < 0)]
      rw [abs_of_pos (by norm_num : (0:ℝ) < 1 / 10)]
      rw [max_eq_left (by norm_num : (0:ℝ) ≤ 1 / 10),
        max_eq_left (by norm_num : ((1:ℝ) / 10) ≤ -(-(1 / 4))),
        max_eq_left (by norm_num : -(-((1:ℝ) / 4)) ≤ 1 / 2)]
    simp only [peak_normalize, Option.getD_none, hm]
    rw [show ((0 : ℝ) / 20) = 0 by norm_num, Real.rpow_zero]
    simp only [scaleB, List.map_cons, List.map_nil]
    norm_num

/-- Closed witness for `peak_normalize_invariant` at the spec scenario. -/
theorem peak_normalize_invariant_witness :
    0 < maxAbs [[(1 : ℝ) / 2, -(1 / 4), 1 / 10]]
    ∧ (maxAbs (peak_normalize [[(1 : ℝ) / 2, -(1 / 4), 1 / 10]] 48000 0 none).1
        = (10 : ℝ) ^ ((0 : ℝ) / 20)
      ∧ peak_normalize [[1 / 2, -(1 / 4), 1 / 10]] 48000 0 none
        = ([[1, -(1 / 2), 1 / 5]], 48000)) := by
  have hm : maxAbs [[(1 : ℝ) / 2, -(1 / 4), 1 / 10]] = 1 / 2 := by
    simp only [maxAbs, flatVals, List.foldr_cons, List.foldr_nil,
      List.append_nil, List.map_cons, List.map_nil]
    rw [abs_of_pos (by norm_num : (0:ℝ) < 1 / 2),
      abs_of_neg (by norm_num : -((1:ℝ) / 4) < 0)]
    rw [abs_of_pos (by norm_num : (0:ℝ) < 1 / 10)]
    rw [max_eq_left (by norm_num : (0:ℝ) ≤ 1 / 10),
      max_eq_left (by norm_num : ((1:ℝ) / 10) ≤ -(-(1 / 4))),
      max_eq_left (by norm_num : -(-((1:ℝ) / 4)) ≤ 1 / 2)]
  have hp : 0 < maxAbs [[(1 : ℝ) / 2, -(1 / 4), 1 / 10]] := by
    rw [hm]; norm_num
  exact ⟨hp, peak_normalize_invariant [[(1 : ℝ) / 2, -(1 / 4), 1 / 10]] 48000 0 hp⟩

/-- C2: the row selection `[[0,-1]]` applied to the 2-D full convolution
always yields exactly two channels: the convolution of the first channels
and the convolution of the last channels.  For one-channel inputs the two
output channels coincide (a duplicated pair), instead of the single
channel the claim expects. -/
theorem convSelect_channel_structure {α : Type} [CommRing α]
    (stim ir : List (List α)) (hs : stim ≠ []) (hi : ir ≠ []) :
    (convSelect stim ir).length = 2
    ∧ convSelect stim ir
      = [conv1d stim.headI ir.headI, conv1d (stim.getLastD []) (ir.getLastD [])]
    ∧ (stim.length = 1 → ir.length = 1 →
        convSelect stim ir
          = [conv1d stim.headI ir.headI, conv1d stim.headI ir.headI]) := by
  refine ⟨rfl, ?_, ?_⟩
  · unfold convSelect
    rw [conv2d_headI _ _ hs hi, conv2d_getLastD _ _ hs hi]
  · intro h1 h2
    obtain ⟨a, rfl⟩ := List.length_eq_one.mp h1
    obtain ⟨b, rfl⟩ := List.length_eq_one.mp h2
    simp [convSelect, conv2d, addR, addR_nil, addL_nil, List.headI]

/-- Closed witness for `convSelect_channel_structure` on a stereo pair. -/
theorem convSelect_channel_structure_witness :
    (([[(1 : ℤ), 2], [3, 4]] : List (List ℤ)) ≠ [] ∧
      ([[(1 : ℤ)], [0]] : List (List ℤ)) ≠ [])
    ∧ ((convSelect [[(1 : ℤ), 2], [3, 4]] [[(1 : ℤ)], [0]]).length = 2
      ∧ convSelect [[(1 : ℤ), 2], [3, 4]] [[(1 : ℤ)], [0]]
        = [conv1d ([[(1 : ℤ), 2], [3, 4]] : List (List ℤ)).headI
            ([[(1 : ℤ)], [0]] : List (List ℤ)).headI,
          conv1d (([[(1 : ℤ), 2], [3, 4]] : List (List ℤ)).getLastD [])
            (([[(1 : ℤ)], [0]] : List (List ℤ)).getLastD [])]
      ∧ (([[(1 : ℤ), 2], [3, 4]] : List (List ℤ)).length = 1 →
          ([[(1 : ℤ)], [0]] : List (List ℤ)).length = 1 →
          convSelect [[(1 : ℤ), 2], [3, 4]] [[(1 : ℤ)], [0]]
            = [conv1d ([[(1 : ℤ), 2], [3, 4]] : List (List ℤ)).headI
                ([[(1 : ℤ)], [0]] : List (List ℤ)).headI,
              conv1d ([[(1 : ℤ), 2], [3, 4]] : List (List ℤ)).headI
                ([[(1 : ℤ)], [0]] : List (List ℤ)).headI])) :=
  ⟨⟨by decide, by decide⟩,
    convSelect_channel_structure [[(1 : ℤ), 2], [3, 4]] [[(1 : ℤ)], [0]]
      (by decide) (by decide)⟩

/-- C2 counterexample: convolving a mono impulse response with a mono
stimulus yields a two-channel (duplicated) buffer, not a mono one. -/
theorem convSelect_mono_mono_two_channels :
    convSelect [[(1 : ℤ)]] [[(1 : ℤ)]] = [[1], [1]]
    ∧ (convSelect [[(1 : ℤ)]] [[(1 : ℤ)]]).length ≠ 1 := by
  decide

/-- Evaluation of the spec's convolution scenario through the full
`convolution` pipeline (equal rates, `fade_out=False`, no prefilter, no
normalization, trivial oracles): the mono-times-mono convolution comes
back as a duplicated two-channel buffer. -/
theorem convolution_scenario_eval :
    convolution (fun b _ => b) (fun _ _ _ b => b) (fun _ _ => 0)
      [[(1 : ℝ), 1 / 2, 1 / 4]] 48000 [[1, 0, -1]] 48000 false Option.none 0 "" 200
    = Except.ok ([[(1 : ℝ), 1 / 2, -(3 / 4), -(1 / 2), -(1 / 4)],
        [1, 1 / 2, -(3 / 4), -(1 / 2), -(1 / 4)]], 48000) := by
  have hsel : convSelect [[(1 : ℝ), 0, -1]] [[(1 : ℝ), 1 / 2, 1 / 4]]
      = [[(1 : ℝ), 1 / 2, -(3 / 4), -(1 / 2), -(1 / 4)],
        [1, 1 / 2, -(3 / 4), -(1 / 2), -(1 / 4)]] := by
    norm_num [convSelect, conv2d, conv1d, addR, addL, List.replicate,
      List.headI, List.getLastD]
  simpa [convolution, normalizeDispatch] using hsel

/-- C4 (amended): every channel of the selected convolution output has
`stim.frames + ir.frames - 1` frames (for buffers whose channels all
share one positive frame count), and the spec's concrete mono scenario
returns a duplicated two-channel buffer whose channels both carry the
expected samples `[1, 0.5, -0.75, -0.5, -0.25]` at 48 kHz. -/
theorem convolution_length_law {α : Type} [CommRing α]
    (stim ir : List (List α)) (n m : ℕ) (hs : stim ≠ []) (hi : ir ≠ [])
    (hn : 1 ≤ n) (hm : 1 ≤ m) (hsl : ∀ ch ∈ stim, ch.length = n)
    (hil : ∀ ch ∈ ir, ch.length = m) :
    (∀ ch ∈ convSelect stim ir, ch.length = n + m - 1)
    ∧ convolution (fun b _ => b) (fun _ _ _ b => b) (fun _ _ => 0)
        [[(1 : ℝ), 1 / 2, 1 / 4]] 48000 [[1, 0, -1]] 48000 false Option.none 0 "" 200
      = Except.ok ([[(1 : ℝ), 1 / 2, -(3 / 4), -(1 / 2), -(1 / 4)],
          [1, 1 / 2, -(3 / 4), -(1 / 2), -(1 / 4)]], 48000) := by
  refine ⟨?_, convolution_scenario_eval⟩
  intro ch hch
  have hshead : stim.headI.length = n := hsl _ (headI_mem _ hs)
  have hihead : ir.headI.length = m := hil _ (headI_mem _ hi)
  have hslast : (stim.getLastD []).length = n := hsl _ (getLastD_mem _ _ hs)
  have hilast : (ir.getLastD []).length = m := hil _ (getLastD_mem _ _ hi)
  have hsh : stim.headI ≠ [] := by
    intro hcon; rw [hcon] at hshead; simp at hshead; omega
  have hih : ir.headI ≠ [] := by
    intro hcon; rw [hcon] at hihead; simp at hihead; omega
  have hsl2 : stim.getLastD [] ≠ [] := by
    intro hcon; rw [hcon] at hslast; simp at hslast; omega
  have hil2 : ir.getLastD [] ≠ [] := by
    intro hcon; rw [hcon] at hilast; simp at hilast; omega
  unfold convSelect at hch
  rw [conv2d_headI _ _ hs hi, conv2d_getLastD _ _ hs hi] at hch
  rcases List.mem_pair.mp hch with h | h
  · subst h
    rw [conv1d_length _ _ hsh hih, hshead, hihead]
  · subst h
    rw [conv1d_length _ _ hsl2 hil2, hslast, hilast]

/-- Closed witness for `convolution_length_law` on the scenario buffers. -/
theorem convolution_length_law_witness :
    (([[(1 : ℤ), 0, -1]] : List (List ℤ)) ≠ [] ∧
      ([[(1 : ℤ), 2, 4]] : List (List ℤ)) ≠ [] ∧
      (∀ ch ∈ ([[(1 : ℤ), 0, -1]] : List (List ℤ)), ch.length = 3) ∧
      (∀ ch ∈ ([[(1 : ℤ), 2, 4]] : List (List ℤ)), ch.length = 3))
    ∧ (∀ ch ∈ convSelect [[(1 : ℤ), 0, -1]] [[(1 : ℤ), 2, 4]],
        ch.length = 3 + 3 - 1) :=
  ⟨⟨by decide, by decide, by decide, by decide⟩,
    (convolution_length_law [[(1 : ℤ), 0, -1]] [[(1 : ℤ), 2, 4]] 3 3
      (by decide) (by decide) (by decide) (by decide)
      (by decide) (by decide)).1⟩

/-- C4 counterexample: the scenario convolution does not return the mono
buffer `[1, 0.5, -0.75, -0.5, -0.25]` the claim describes; it returns a
two-channel buffer. -/
theorem convolution_scenario_not_mono :
    convolution (fun b _ => b) (fun _ _ _ b => b) (fun _ _ => 0)
      [[(1 : ℝ), 1 / 2, 1 / 4]] 48000 [[1, 0, -1]] 48000 false Option.none 0 "" 200
    ≠ Except.ok ([[(1 : ℝ), 1 / 2, -(3 / 4), -(1 / 2), -(1 / 4)]], 48000) := by
  rw [convolution_scenario_eval]
  intro h
  have := (Prod.mk.injEq _ _ _ _).mp (Except.ok.inj h)
  have hlen := congrArg List.length this.1
  simp at hlen

/-- The `if/elif` normalization chain falls through to the catch-all
branch for any mode outside the four recognized strings (including the
`None` mode), returning the audio unnormalized without any error. -/
theorem normalizeDispatch_fallthrough (meter : ℕ → List (List ℝ) → ℝ)
    (mode : Option String) (audio : List (List ℝ))
    (prefOpt : Option (List (List ℝ))) (ir : List (List ℝ)) (fs : ℕ) (t : ℝ)
    (h1 : mode ≠ some "peak") (h2 : mode ≠ some "ir_sum")
    (h3 : mode ≠ some "rms") (h4 : mode ≠ some "lufs") :
    normalizeDispatch meter mode audio prefOpt ir fs t = Except.ok (audio, fs) := by
  unfold normalizeDispatch
  rw [if_neg h1, if_neg h2, if_neg h3, if_neg h4]
  by_cases h5 : mode = Option.none
  · rw [if_pos h5]
  · rw [if_neg h5]

/-- C5 (amended): an unrecognized normalization mode is *not* rejected:
the call behaves exactly like `normalization = None`, silently returning
the unnormalized convolution result; and with `None` (no prefilter, equal
rates, no fade) `convolution` returns the raw `convSelect` output. -/
theorem convolution_unknown_mode_no_error (rf : List (List ℝ) → ℕ → List (List ℝ))
    (bf : String → ℝ → ℕ → List (List ℝ) → List (List ℝ))
    (meter : ℕ → List (List ℝ) → ℝ) (in1 : List (List ℝ)) (fs1 : ℕ)
    (in2 : List (List ℝ)) (fs2 : ℕ) (fo : Bool) (mode : Option String) (t : ℝ)
    (pf : String) (pcf : ℝ) (h1 : mode ≠ some "peak") (h2 : mode ≠ some "ir_sum")
    (h3 : mode ≠ some "rms") (h4 : mode ≠ some "lufs") :
    convolution rf bf meter in1 fs1 in2 fs2 fo mode t pf pcf
      = convolution rf bf meter in1 fs1 in2 fs2 fo Option.none t pf pcf
    ∧ ∀ ir stim : List (List ℝ), ∀ fs : ℕ,
        convolution rf bf meter ir fs stim fs false Option.none t "" pcf
          = Except.ok (convSelect stim ir, fs) := by
  constructor
  · simp only [convolution]
    cases htap : (if fo then
        taperChannels (fadeWin fs2)
          (if fs1 = fs2 then (in1, fs1) else match_fs rf in1 fs2 fs1).1
      else Except.ok (if fs1 = fs2 then (in1, fs1) else match_fs rf in1 fs2 fs1).1) with
    | error e => rfl
    | ok in1t =>
      dsimp only
      rw [normalizeDispatch_fallthrough _ _ _ _ _ _ _ h1 h2 h3 h4,
        normalizeDispatch_fallthrough _ _ _ _ _ _ _ (by simp) (by simp) (by simp)
          (by simp)]
  · intro ir stim fs
    simp [convolution, normalizeDispatch]

/-- Closed witness for `convolution_unknown_mode_no_error` with the
unrecognized mode string `"boxcar"`. -/
theorem convolution_unknown_mode_no_error_witness :
    ((some "boxcar" ≠ some "peak") ∧ (some "boxcar" ≠ some "ir_sum")
      ∧ (some "boxcar" ≠ some "rms") ∧ (some "boxcar" ≠ some "lufs"))
    ∧ (convolution (fun b _ => b) (fun _ _ _ b => b) (fun _ _ => 0)
        [[(1 : ℝ)]] 48000 [[1]] 48000 false (some "boxcar") 0 "" 200
      = convolution (fun b _ => b) (fun _ _ _ b => b) (fun _ _ => 0)
        [[(1 : ℝ)]] 48000 [[1]] 48000 false Option.none 0 "" 200
    ∧ ∀ ir stim : List (List ℝ), ∀ fs : ℕ,
        convolution (fun b _ => b) (fun _ _ _ b => b) (fun _ _ => 0)
          ir fs stim fs false Option.none 0 "" 200
        = Except.ok (convSelect stim ir, fs)) :=
  ⟨⟨by simp, by simp, by simp, by simp⟩,
    convolution_unknown_mode_no_error (fun b _ => b) (fun _ _ _ b => b)
      (fun _ _ => 0) [[(1 : ℝ)]] 48000 [[1]] 48000 false (some "boxcar") 0 "" 200
      (by simp) (by simp) (by simp) (by simp)⟩

/-- C5 counterexample: a bogus normalization mode does not fail with any
error; the call returns the raw unnormalized convolution result, exactly
as `normalization = None` would. -/
theorem convolution_bogus_mode_returns_raw :
    convolution (fun b _ => b) (fun _ _ _ b => b) (fun _ _ => 0)
      [[(1 : ℝ)]] 48000 [[1]] 48000 false (some "bogus") 0 "" 200
    = Except.ok ([[(1 : ℝ)], [1]], 48000) := by
  have hsel : convSelect [[(1 : ℝ)]] [[(1 : ℝ)]] = [[(1 : ℝ)], [1]] := by
    norm_num [convSelect, conv2d, conv1d, addR, addL, List.headI, List.getLastD]
  have hd := normalizeDispatch_fallthrough (fun _ _ => (0 : ℝ)) (some "bogus")
    (convSelect [[(1 : ℝ)]] [[(1 : ℝ)]]) (some (convSelect [[(1 : ℝ)]] [[(1 : ℝ)]]))
    [[(1 : ℝ)]] 48000 0 (by simp) (by simp) (by simp) (by simp)
  rw [hsel] at hd
  simp [convolution, hd, hsel]

/-- The fade-out window has exactly `size = int(fs_in2/12.5)` samples. -/
theorem generalCosine_length (m : ℕ) (a : List ℝ) :
    (generalCosine m a).length = m := by
  rw [generalCosine, List.length_map, List.length_range]

theorem fadeWin_length (fs2 : ℕ) : (fadeWin fs2).length = fs2 * 2 / 25 := by
  unfold fadeWin
  simp only [List.length_map, List.length_drop, generalCosine_length]
  omega

/-- C6 (amended): the in-place edge taper succeeds, preserving every
channel's frame count (no wrap, no out-of-bounds access), precisely when
each channel has at least as many frames as the window; in particular for
impulse responses between one and two taper lengths long.  (Channels
shorter than the window hit a numpy broadcast error instead, see the
counterexample.) -/
theorem taperChannels_partial_ok (win : List ℝ) (chans : List (List ℝ))
    (h : ∀ c ∈ chans, win.length ≤ c.length) :
    ∃ out, taperChannels win chans = Except.ok out
      ∧ out.map List.length = chans.map List.length := by
  induction chans with
  | nil => exact ⟨[], rfl, rfl⟩
  | cons c cs ih =>
    obtain ⟨out, hout, hlen⟩ := ih (fun x hx => h x (List.mem_cons_of_mem c hx))
    have hc : win.length ≤ c.length := h c (List.mem_cons_self c cs)
    have happ : applyFade win c = Except.ok (c.take (c.length - win.length) ++
        List.zipWith (fun a b => a * b) (c.drop (c.length - win.length)) win) := by
      rw [applyFade, if_pos hc]
    refine ⟨(c.take (c.length - win.length) ++
        List.zipWith (fun a b => a * b) (c.drop (c.length - win.length)) win) :: out,
      ?_, ?_⟩
    · rw [taperChannels, happ, hout]
    · simp only [List.map_cons, hlen, List.length_append, List.length_take,
        List.length_zipWith, List.length_drop]
      congr 1
      omega

/-- Closed witness for `taperChannels_partial_ok`: a two-sample window on
channels of three and four frames (shorter than twice the window). -/
theorem taperChannels_partial_ok_witness :
    (∀ c ∈ [[(1 : ℝ), 2, 3], [4, 5, 6, 7]],
      ([(1 : ℝ), 1] : List ℝ).length ≤ c.length)
    ∧ ∃ out, taperChannels [(1 : ℝ), 1] [[(1 : ℝ), 2, 3], [4, 5, 6, 7]]
        = Except.ok out
      ∧ out.map List.length = [[(1 : ℝ), 2, 3], [4, 5, 6, 7]].map List.length := by
  have h : ∀ c ∈ [[(1 : ℝ), 2, 3], [4, 5, 6, 7]],
      ([(1 : ℝ), 1] : List ℝ).length ≤ c.length := by
    intro c hc
    rcases List.mem_pair.mp hc with h | h <;> subst h <;> simp
  exact ⟨h, taperChannels_partial_ok [(1 : ℝ), 1] [[(1 : ℝ), 2, 3], [4, 5, 6, 7]] h⟩

/-- C6 counterexample: a one-frame impulse response at 48 kHz (shorter
than the 3840-sample taper) makes `convolution` with `fade_out=True` fail
with the broadcast error, rather than tapering the available frames. -/
theorem convolution_short_ir_broadcast_error :
    convolution (fun b _ => b) (fun _ _ _ b => b) (fun _ _ => 0)
      [[(1 : ℝ)]] 48000 [[1, 0]] 48000 true Option.none 0 "" 200
    = Except.error ConvErr.broadcast := by
  have hw : (fadeWin 48000).length = 3840 := by rw [fadeWin_length]
  have happ : applyFade (fadeWin 48000) [(1 : ℝ)] = Except.error ConvErr.broadcast := by
    rw [applyFade, if_neg]
    rw [hw]
    simp
  simp [convolution, taperChannels, happ]

/-- With an oracle that never comes within the 0.1-phon tolerance of the
target, every iteration recomputes the same off-target difference, so the
loop never exits, no matter how much fuel it is observed for. -/
theorem convergeAux_const_none (phonOf : List (List ℝ) → ℝ) (c target : ℝ)
    (p : List (List ℝ)) (hconst : ∀ b, phonOf b = c)
    (hT : 1 / 10 < |target - c|) :
    ∀ fuel ratio diff n, diff = target - c →
      convergeAux phonOf target p fuel ratio diff n = none := by
  intro fuel
  induction fuel with
  | zero =>
    intro ratio diff n hd
    rw [convergeAux, if_neg (by rw [hd]; exact not_le.mpr hT)]
  | succ f ih =>
    intro ratio diff n hd
    rw [convergeAux, if_neg (by rw [hd]; exact not_le.mpr hT)]
    exact ih _ _ _ (by rw [hconst])

/-- C1 (amended): the `while` loop of `zwicker_loudness_normalize` has no
iteration cap and never signals a convergence failure: with an oracle
that stays more than 0.1 phon away from the target, the loop is still
running after any number of iterations (in particular past 100), and
nothing at all is returned while it runs. -/
theorem zwickerLoop_no_iteration_cap (phonOf : List (List ℝ) → ℝ)
    (c target : ℝ) (p : List (List ℝ)) (hconst : ∀ b, phonOf b = c)
    (hT : 1 / 10 < |target - c|) :
    ∀ fuel, zwickerLoop phonOf target p fuel = none := by
  intro fuel
  rw [zwickerLoop]
  exact convergeAux_const_none phonOf c target p hconst hT fuel 1 _ 0
    (by rw [hconst])

/-- Closed witness for `zwickerLoop_no_iteration_cap` with a constant
20-phon oracle and a 40-phon target, observed past 100 iterations. -/
theorem zwickerLoop_no_iteration_cap_witness :
    (∀ b : List (List ℝ), (fun _ : List (List ℝ) => (20 : ℝ)) b = 20)
    ∧ (1 / 10 < |(40 : ℝ) - 20|)
    ∧ zwickerLoop (fun _ : List (List ℝ) => (20 : ℝ)) 40 [[1]] 101 = none :=
  ⟨fun _ => rfl, by norm_num,
    zwickerLoop_no_iteration_cap (fun _ => (20 : ℝ)) 20 40 [[1]] (fun _ => rfl)
      (by norm_num) 101⟩

/-- C1 counterexample: with a never-converging oracle the loop is still
running after 101 and even 1000 iterations — no 100-iteration safety
bound fires and no convergence failure is raised. -/
theorem zwickerLoop_runs_past_bound :
    zwickerLoop (fun _ : List (List ℝ) => (20 : ℝ)) 40 [[1]] 101 = none
    ∧ zwickerLoop (fun _ : List (List ℝ) => (20 : ℝ)) 40 [[1]] 1000 = none := by
  have h := convergeAux_const_none (fun _ : List (List ℝ) => (20 : ℝ)) 20 40
    [[1]] (fun _ => rfl) (by norm_num)
  exact ⟨h 101 1 _ 0 rfl, h 1000 1 _ 0 rfl⟩

/-- One damped step of the loop: when the measured level depends on the
cumulative gain as `k * log10(ratio) + c`, the phon difference contracts
by the factor `1 - k/20` each iteration, so once enough fuel is given for
`|diff| * |1 - k/20|^fuel ≤ 0.1`, the loop exits. -/
theorem convergeAux_damped_isSome (phonOf : List (List ℝ) → ℝ)
    (target k c : ℝ) (p : List (List ℝ))
    (hO : ∀ r : ℝ, 0 < r → phonOf (scaleB r p) = k * Real.logb 10 r + c) :
    ∀ fuel ratio diff n, 0 < ratio →
      diff = (target - c) - k * Real.logb 10 ratio →
      |diff| * |1 - k / 20| ^ fuel ≤ 1 / 10 →
      (convergeAux phonOf target p fuel ratio diff n).isSome := by
  intro fuel
  induction fuel with
  | zero =>
    intro ratio diff n hr hd hb
    rw [convergeAux, if_pos (by simpa using hb)]
    rfl
  | succ f ih =>
    intro ratio diff n hr hd hb
    by_cases hsmall : |diff| ≤ 1 / 10
    · rw [convergeAux, if_pos hsmall]
      rfl
    · rw [convergeAux, if_neg hsmall]
      have hrp : (0 : ℝ) < (10 : ℝ) ^ (diff / 20) :=
        Real.rpow_pos_of_pos (by norm_num) _
      have hr' : (0 : ℝ) < ratio * (10 : ℝ) ^ (diff / 20) := mul_pos hr hrp
      have hlog : Real.logb 10 (ratio * (10 : ℝ) ^ (diff / 20))
          = Real.logb 10 ratio + diff / 20 := by
        rw [Real.logb_mul (ne_of_gt hr) (ne_of_gt hrp),
          Real.logb_rpow (by norm_num) (by norm_num)]
      have hdiff : target - phonOf (scaleB (ratio * (10 : ℝ) ^ (diff / 20)) p)
          = diff * (1 - k / 20) := by
        rw [hO _ hr', hlog, hd]
        ring
      have hinv : target - phonOf (scaleB (ratio * (10 : ℝ) ^ (diff / 20)) p)
          = (target - c)
            - k * Real.logb 10 (ratio * (10 : ℝ) ^ (diff / 20)) := by
        rw [hO _ hr']
        ring
      have hb' : |target - phonOf (scaleB (ratio * (10 : ℝ) ^ (diff / 20)) p)|
          * |1 - k / 20| ^ f ≤ 1 / 10 := by
        rw [hdiff, abs_mul]
        calc |diff| * |1 - k / 20| * |1 - k / 20| ^ f
            = |diff| * |1 - k / 20| ^ (f + 1) := by ring
          _ ≤ 1 / 10 := hb
      exact ih _ _ _ hr' hinv hb'

/-- C7 (amended): for a synthetic oracle `f(ratio) = k * log10(ratio) + c`
the loop converges to within the 0.1-phon tolerance in a bounded number
of iterations precisely because the per-step damping factor `|1 - k/20|`
is below one, which requires `0 < k < 40` — not every `k > 0` (see the
counterexample for `k = 40`). -/
theorem zwicker_converges_damped (phonOf : List (List ℝ) → ℝ)
    (target k c : ℝ) (p : List (List ℝ)) (hk0 : 0 < k) (hk40 : k < 40)
    (hO : ∀ r : ℝ, 0 < r → phonOf (scaleB r p) = k * Real.logb 10 r + c) :
    ∃ fuel, (zwickerLoop phonOf target p fuel).isSome := by
  have hp : phonOf p = c := by
    have h1 := hO 1 one_pos
    have hscale : scaleB 1 p = p := by
      simp [scaleB]
    rw [hscale] at h1
    simpa [Real.logb_one] using h1
  have hq : |1 - k / 20| < 1 := by
    rw [abs_lt]
    constructor <;> nlinarith
  have hd0 : target - phonOf p = (target - c) - k * Real.logb 10 1 := by
    rw [hp, Real.logb_one]
    ring
  by_cases hsmall : |target - c| ≤ 1 / 10
  · refine ⟨0, ?_⟩
    rw [zwickerLoop]
    apply convergeAux_damped_isSome phonOf target k c p hO 0 1 _ 0
      one_pos hd0
    rw [pow_zero, mul_one, hp]
    exact hsmall
  · have habs : 0 < |target - c| := lt_trans (by norm_num) (not_le.mp hsmall)
    obtain ⟨nn, hnn⟩ := exists_pow_lt_of_lt_one
      (div_pos (by norm_num : (0 : ℝ) < 1 / 10) habs) hq
    refine ⟨nn, ?_⟩
    rw [zwickerLoop]
    apply convergeAux_damped_isSome phonOf target k c p hO nn 1 _ 0
      one_pos hd0
    rw [hp]
    have hlt : |1 - k / 20| ^ nn * |target - c| < 1 / 10 :=
      (lt_div_iff₀ habs).mp hnn
    calc |target - c| * |1 - k / 20| ^ nn
        = |1 - k / 20| ^ nn * |target - c| := by ring
      _ ≤ 1 / 10 := le_of_lt hlt

/-- Closed witness for `zwicker_converges_damped`: oracle
`20 * log10(ratio) + 30`, target 30. -/
theorem zwicker_converges_damped_witness :
    (0 < (20 : ℝ)) ∧ ((20 : ℝ) < 40)
    ∧ (∀ r : ℝ, 0 < r →
        (fun b : List (List ℝ) => 20 * Real.logb 10 b.headI.headI + 30)
          (scaleB r [[1]]) = 20 * Real.logb 10 r + 30)
    ∧ ∃ fuel, (zwickerLoop
        (fun b : List (List ℝ) => 20 * Real.logb 10 b.headI.headI + 30) 30
        [[1]] fuel).isSome := by
  have hO : ∀ r : ℝ, 0 < r →
      (fun b : List (List ℝ) => 20 * Real.logb 10 b.headI.headI + 30)
        (scaleB r [[1]]) = 20 * Real.logb 10 r + 30 := by
    intro r hr
    simp [scaleB]
  exact ⟨by norm_num, by norm_num, hO,
    zwicker_converges_damped _ 30 20 30 [[1]] (by norm_num) (by norm_num) hO⟩

/-- With the oracle `40 * log10(ratio) + 30` and target 40 the difference
oscillates between +10 and -10 forever: each step flips its sign without
shrinking it, so the loop never exits. -/
theorem convergeAux_osc_none :
    ∀ fuel ratio diff n, 0 < ratio →
      diff = 10 - 40 * Real.logb 10 ratio → |diff| = 10 →
      convergeAux
        (fun b : List (List ℝ) => 40 * Real.logb 10 b.headI.headI + 30) 40
        [[1]] fuel ratio diff n = none := by
  intro fuel
  induction fuel with
  | zero =>
    intro ratio diff n hr hd habs
    rw [convergeAux, if_neg (by rw [habs]; norm_num)]
  | succ f ih =>
    intro ratio diff n hr hd habs
    rw [convergeAux, if_neg (by rw [habs]; norm_num)]
    have hrp : (0 : ℝ) < (10 : ℝ) ^ (diff / 20) :=
      Real.rpow_pos_of_pos (by norm_num) _
    have hr' : (0 : ℝ) < ratio * (10 : ℝ) ^ (diff / 20) := mul_pos hr hrp
    have hval : (fun b : List (List ℝ) =>
          40 * Real.logb 10 b.headI.headI + 30)
        (scaleB (ratio * (10 : ℝ) ^ (diff / 20)) [[1]])
        = 40 * Real.logb 10 (ratio * (10 : ℝ) ^ (diff / 20)) + 30 := by
      simp [scaleB]
    have hlog : Real.logb 10 (ratio * (10 : ℝ) ^ (diff / 20))
        = Real.logb 10 ratio + diff / 20 := by
      rw [Real.logb_mul (ne_of_gt hr) (ne_of_gt hrp),
        Real.logb_rpow (by norm_num) (by norm_num)]
    have hd' : 40 - (fun b : List (List ℝ) =>
          40 * Real.logb 10 b.headI.headI + 30)
        (scaleB (ratio * (10 : ℝ) ^ (diff / 20)) [[1]]) = -diff := by
      rw [hval, hlog, hd]
      ring
    have hinv : 40 - (fun b : List (List ℝ) =>
          40 * Real.logb 10 b.headI.headI + 30)
        (scaleB (ratio * (10 : ℝ) ^ (diff / 20)) [[1]])
        = 10 - 40 * Real.logb 10 (ratio * (10 : ℝ) ^ (diff / 20)) := by
      rw [hval, hlog, hd]
      ring
    exact ih _ _ _ hr' hinv (by rw [hd', abs_neg, habs])

/-- C7 counterexample: the claim fails for `k = 40 > 0`; with the oracle
`40 * log10(ratio) + 30` and target 40 the loop oscillates forever and
never reaches the 0.1-phon tolerance. -/
theorem zwicker_divergent_oracle_counterexample :
    ¬ (∀ (phonOf : List (List ℝ) → ℝ) (target k c : ℝ) (p : List (List ℝ)),
        0 < k →
        (∀ r : ℝ, 0 < r → phonOf (scaleB r p) = k * Real.logb 10 r + c) →
        ∃ fuel, (zwickerLoop phonOf target p fuel).isSome) := by
  intro hclaim
  have hO : ∀ r : ℝ, 0 < r →
      (fun b : List (List ℝ) => 40 * Real.logb 10 b.headI.headI + 30)
        (scaleB r [[1]]) = 40 * Real.logb 10 r + 30 := by
    intro r hr
    simp [scaleB]
  obtain ⟨fuel, hfuel⟩ := hclaim
    (fun b : List (List ℝ) => 40 * Real.logb 10 b.headI.headI + 30) 40 40 30
    [[1]] (by norm_num) hO
  have h10 : (40 : ℝ) - (fun b : List (List ℝ) =>
      40 * Real.logb 10 b.headI.headI + 30) [[1]] = 10 := by
    norm_num [Real.logb_one]
  have hnone : zwickerLoop
      (fun b : List (List ℝ) => 40 * Real.logb 10 b.headI.headI + 30) 40
      [[1]] fuel = none := by
    rw [zwickerLoop]
    apply convergeAux_osc_none fuel 1 _ 0 one_pos
    · rw [h10, Real.logb_one]
      ring
    · rw [h10]
      exact abs_of_pos (by norm_num)
  rw [hnone] at hfuel
  simp at hfuel

/-- With a mosqito oracle whose loudness curve is constantly `[1]`, the
measured level is `40 + 10*log2(1) = 40` phon, so a 40-phon target
converges immediately with ratio 1 after 0 iterations. -/
theorem zwickerLoop_const_target (p : List (List ℝ)) (fuel : ℕ) :
    zwickerLoop (fun b => eq_loudness_lvl (fun s _ => s) (fun _ => [1]) b 48000)
      40 p fuel = some (1, 0) := by
  have hc : |(40 : ℝ) - eq_loudness_lvl (fun s _ => s) (fun _ => [1]) p 48000|
      ≤ 1 / 10 := by
    norm_num [eq_loudness_lvl, listMean, Real.logb_one]
  rw [zwickerLoop, convergeAux.eq_def]
  dsimp only
  rw [if_pos hc]

/-- C3 (amended): after the loop converges with ratio `r`, the function
raises the clipping `ValueError` exactly when the peak of the scaled
audio exceeds 1.0, and then the reported `headroom_db` is negative;
otherwise it returns the scaled audio and the sample rate — plus the
ratio only when `return_ratio` is set.  The headroom and the iteration
count are only logged, never part of the return value. -/
theorem zwicker_clipping_exactness (rOracle : List ℝ → ℕ → List ℝ)
    (zOracle : List ℝ → List ℝ) (audio : List (List ℝ)) (fs : ℕ)
    (target dbfs : ℝ) (rr : Bool) (fuel : ℕ) (r : ℝ) (n : ℕ)
    (hloop : zwickerLoop (fun b => eq_loudness_lvl rOracle zOracle b fs) target
        (fs_to_pressure audio dbfs) fuel = some (r, n)) :
    (1 < maxAbs (scaleB r audio) →
      (zwicker_loudness_normalize rOracle zOracle audio fs target dbfs rr
          fuel).1
        = ZRet.clip (20 * Real.logb 10 (1 / maxAbs (scaleB r audio)))
      ∧ 20 * Real.logb 10 (1 / maxAbs (scaleB r audio)) < 0)
    ∧ (maxAbs (scaleB r audio) ≤ 1 →
      (zwicker_loudness_normalize rOracle zOracle audio fs target dbfs rr
          fuel).1
        = ZRet.ok (scaleB r audio) fs (if rr then some r else none)) := by
  constructor
  · intro hclip
    constructor
    · rw [zwicker_loudness_normalize, hloop]
      dsimp only
      rw [if_pos hclip]
    · have hm : (0 : ℝ) < maxAbs (scaleB r audio) := lt_trans one_pos hclip
      have h1 : (0 : ℝ) < 1 / maxAbs (scaleB r audio) := by positivity
      have h2 : 1 / maxAbs (scaleB r audio) < 1 := by
        rw [div_lt_one hm]
        exact hclip
      exact mul_neg_of_pos_of_neg (by norm_num)
        (Real.logb_neg (by norm_num) h1 h2)
  · intro hok
    rw [zwicker_loudness_normalize, hloop]
    dsimp only
    rw [if_neg (not_lt.mpr hok)]

/-- Closed witness for `zwicker_clipping_exactness`: constant 40-phon
oracle, 40-phon target, full-scale-violating audio `[[2]]`. -/
theorem zwicker_clipping_exactness_witness :
    zwickerLoop (fun b => eq_loudness_lvl (fun s _ => s) (fun _ => [1]) b 48000)
        40 (fs_to_pressure [[2]] 0) 5 = some (1, 0)
    ∧ ((1 < maxAbs (scaleB 1 [[2]]) →
        (zwicker_loudness_normalize (fun s _ => s) (fun _ => [1]) [[2]] 48000
            40 0 false 5).1
          = ZRet.clip (20 * Real.logb 10 (1 / maxAbs (scaleB 1 [[2]])))
        ∧ 20 * Real.logb 10 (1 / maxAbs (scaleB 1 [[2]])) < 0)
      ∧ (maxAbs (scaleB 1 [[2]]) ≤ 1 →
        (zwicker_loudness_normalize (fun s _ => s) (fun _ => [1]) [[2]] 48000
            40 0 false 5).1
          = ZRet.ok (scaleB 1 [[2]]) 48000 (if false then some 1 else none))) :=
  ⟨zwickerLoop_const_target (fs_to_pressure [[2]] 0) 5,
    zwicker_clipping_exactness (fun s _ => s) (fun _ => [1]) [[2]] 48000 40 0
      false 5 1 0 (zwickerLoop_const_target (fs_to_pressure [[2]] 0) 5)⟩

/-- C10: `audio *= ratio_loud` runs before the clipping check, so after a
converged loop the caller's buffer holds the scaled samples in every
outcome — including when the clipping error is raised — and the buffer
returned on success is exactly that mutated buffer. -/
theorem zwicker_inplace_mutation (rOracle : List ℝ → ℕ → List ℝ)
    (zOracle : List ℝ → List ℝ) (audio : List (List ℝ)) (fs : ℕ)
    (target dbfs : ℝ) (rr : Bool) (fuel : ℕ) (r : ℝ) (n : ℕ)
    (hloop : zwickerLoop (fun b => eq_loudness_lvl rOracle zOracle b fs) target
        (fs_to_pressure audio dbfs) fuel = some (r, n)) :
    (zwicker_loudness_normalize rOracle zOracle audio fs target dbfs rr
        fuel).2 = scaleB r audio
    ∧ ∀ a fs2 ro, (zwicker_loudness_normalize rOracle zOracle audio fs target
        dbfs rr fuel).1 = ZRet.ok a fs2 ro → a = scaleB r audio := by
  rw [zwicker_loudness_normalize, hloop]
  dsimp only
  by_cases h : 1 < maxAbs (scaleB r audio)
  · rw [if_pos h]
    refine ⟨rfl, ?_⟩
    intro a fs2 ro hcon
    simp at hcon
  · rw [if_neg h]
    refine ⟨rfl, ?_⟩
    intro a fs2 ro hok
    cases hok
    rfl

/-- Closed witness for `zwicker_inplace_mutation` with the constant
40-phon oracle on audio `[[1/3]]`. -/
theorem zwicker_inplace_mutation_witness :
    zwickerLoop (fun b => eq_loudness_lvl (fun s _ => s) (fun _ => [1]) b 48000)
        40 (fs_to_pressure [[1 / 3]] 0) 7 = some (1, 0)
    ∧ ((zwicker_loudness_normalize (fun s _ => s) (fun _ => [1]) [[1 / 3]]
          48000 40 0 true 7).2 = scaleB 1 [[1 / 3]]
      ∧ ∀ a fs2 ro, (zwicker_loudness_normalize (fun s _ => s) (fun _ => [1])
          [[1 / 3]] 48000 40 0 true 7).1 = ZRet.ok a fs2 ro →
          a = scaleB 1 [[1 / 3]]) :=
  ⟨zwickerLoop_const_target (fs_to_pressure [[1 / 3]] 0) 7,
    zwicker_inplace_mutation (fun s _ => s) (fun _ => [1]) [[1 / 3]] 48000 40 0
      true 7 1 0 (zwickerLoop_const_target (fs_to_pressure [[1 / 3]] 0) 7)⟩

/-- One loop iteration: when the difference is still above the tolerance,
the loop scales the cumulative ratio and re-measures. -/
theorem convergeAux_step (phonOf : List (List ℝ) → ℝ) (target : ℝ)
    (p : List (List ℝ)) (fuel : ℕ) (ratio diff : ℝ) (n : ℕ)
    (h : ¬ |diff| ≤ 1 / 10) :
    convergeAux phonOf target p (fuel + 1) ratio diff n
      = convergeAux phonOf target p fuel (ratio * (10 : ℝ) ^ (diff / 20))
          (target - phonOf (scaleB (ratio * (10 : ℝ) ^ (diff / 20)) p))
          (n + 1) := by
  rw [convergeAux.eq_def]
  dsimp only
  rw [if_neg h]

/-- Loop exit: once the difference is within the tolerance, the loop
returns the current ratio and iteration count. -/
theorem convergeAux_exit (phonOf : List (List ℝ) → ℝ) (target : ℝ)
    (p : List (List ℝ)) (fuel : ℕ) (ratio diff : ℝ) (n : ℕ)
    (h : |diff| ≤ 1 / 10) :
    convergeAux phonOf target p fuel ratio diff n = some (ratio, n) := by
  rw [convergeAux.eq_def]
  dsimp only
  rw [if_pos h]

theorem listMean_single (y : ℝ) : listMean [y] = y := by
  simp [listMean]

/-- On a one-frame mono buffer the measurement chain reduces to the
affine-log summary of the loudness curve of that single sample. -/
theorem eq_loudness_single (zO : List ℝ → List ℝ) (x : ℝ) :
    eq_loudness_lvl (fun s _ => s) zO [[x]] 48000
      = 40 + 10 * Real.logb 2 (listMean (zO [x])) := by
  simp [eq_loudness_lvl]

theorem logb_two_quarter : Real.logb 2 ((1 : ℝ) / 4) = -2 := by
  have h2 : (2 : ℝ) ^ ((-2 : ℝ)) = 1 / 4 := by
    rw [show ((-2 : ℝ)) = ((-2 : ℤ) : ℝ) by norm_num, Real.rpow_intCast]
    norm_num
  rw [← h2, Real.logb_rpow (by norm_num) (by norm_num)]

/-- C3 counterexample: two calibration runs that converge with different
ratios (1 vs 10) and different iteration counts (0 vs 1) return *equal*
values — with `return_ratio=False` the return is just `(audio, fs)`, so
it carries neither the applied ratio nor the headroom nor the iteration
count. -/
theorem zwicker_success_payload_counterexample :
    zwickerLoop (fun b => eq_loudness_lvl (fun s _ => s) (fun _ => [1]) b 48000)
        40 (fs_to_pressure [[1 / 2]] 0) 5 = some (1, 0)
    ∧ zwickerLoop (fun b => eq_loudness_lvl (fun s _ => s)
        (fun s => if s.headI = 1 / 1000000 then [1 / 4] else [1]) b 48000) 40
        (fs_to_pressure [[1 / 20]] 0) 5 = some (10, 1)
    ∧ zwicker_loudness_normalize (fun s _ => s) (fun _ => [1]) [[1 / 2]] 48000
        40 0 false 5
      = zwicker_loudness_normalize (fun s _ => s)
          (fun s => if s.headI = 1 / 1000000 then [1 / 4] else [1]) [[1 / 20]]
          48000 40 0 false 5 := by
  have hpB : fs_to_pressure [[(1 : ℝ) / 20]] 0 = [[(1 : ℝ) / 1000000]] := by
    rw [fs_to_pressure, show ((0 : ℝ) / 20) = 0 by norm_num, Real.rpow_zero]
    simp only [scaleB, List.map_cons, List.map_nil]
    norm_num
  have hm0 : eq_loudness_lvl (fun s _ => s)
      (fun s => if s.headI = 1 / 1000000 then [1 / 4] else [1])
      [[(1 : ℝ) / 1000000]] 48000 = 20 := by
    rw [eq_loudness_single]
    norm_num [listMean_single, logb_two_quarter]
  have hm1 : eq_loudness_lvl (fun s _ => s)
      (fun s => if s.headI = 1 / 1000000 then [1 / 4] else [1])
      [[(1 : ℝ) / 100000]] 48000 = 40 := by
    rw [eq_loudness_single]
    norm_num [listMean_single, Real.logb_one]
  have hgain : (1 : ℝ) * (10 : ℝ) ^ (((40 : ℝ) - 20) / 20) = 10 := by
    rw [one_mul, show (((40 : ℝ) - 20) / 20) = 1 by norm_num, Real.rpow_one]
  have hB : zwickerLoop (fun b => eq_loudness_lvl (fun s _ => s)
      (fun s => if s.headI = 1 / 1000000 then [1 / 4] else [1]) b 48000) 40
      (fs_to_pressure [[1 / 20]] 0) 5 = some (10, 1) := by
    rw [hpB, zwickerLoop]
    simp only [hm0]
    rw [show (5 : ℕ) = 4 + 1 from rfl,
      convergeAux_step _ _ _ _ _ _ _ (by norm_num), hgain,
      show scaleB (10 : ℝ) [[(1 : ℝ) / 1000000]] = [[(1 : ℝ) / 100000]] by
        simp only [scaleB, List.map_cons, List.map_nil]; norm_num]
    simp only [hm1]
    rw [convergeAux_exit _ _ _ _ _ _ _ (by norm_num)]
  have hmaxhalf : maxAbs [[(1 : ℝ) / 2]] = 1 / 2 := by
    simp only [maxAbs, flatVals, List.foldr_cons, List.foldr_nil,
      List.append_nil, List.map_cons, List.map_nil]
    rw [abs_of_pos (by norm_num : (0 : ℝ) < 1 / 2)]
    exact max_eq_left (by norm_num)
  have hsA : scaleB (1 : ℝ) [[(1 : ℝ) / 2]] = [[(1 : ℝ) / 2]] := by
    simp [scaleB]
  have hsB : scaleB (10 : ℝ) [[(1 : ℝ) / 20]] = [[(1 : ℝ) / 2]] := by
    simp only [scaleB, List.map_cons, List.map_nil]
    norm_num
  refine ⟨zwickerLoop_const_target (fs_to_pressure [[1 / 2]] 0) 5, hB, ?_⟩
  rw [zwicker_loudness_normalize,
    zwickerLoop_const_target (fs_to_pressure [[1 / 2]] 0) 5,
    zwicker_loudness_normalize, hB]
  simp only [hsA, hsB]
  norm_num [hmaxhalf]

end Listeningpy
